import Mathlib

/-!
Verification development for the memvectordb in-memory vector store.

The Rust modules `model.rs`, `db.rs`, `handlers.rs` and `replay_log.rs` are
embedded shallowly below.  Scalars (`f32` in the source) are idealized as the
elements of a linear ordered field `R` (instantiated at `ℚ`, and at `ℝ` when
the square root must be the real one); the `f32::sqrt` primitive, which lives
in the absent `similarity.rs`, is passed in as an explicit function `sqrt`.

The module `similarity.rs` (metric kernels, `normalize`, the `ScoreIndex`
comparator) is not part of the sources; the definitions for it below are
modelled from the specification, as marked in their doc comments.
-/

namespace MemVec

/-- Distance metric enumeration, from `model.rs` (`Euclidean`, `Cosine`,
`DotProduct`). -/
inductive Distance where
  | Euclidean
  | Cosine
  | DotProduct
deriving DecidableEq

/-- Error enumeration, from `model.rs`.  `LoggerInitializationError` is
unreachable in the source (`setup_logger` always returns `Ok`), so it never
occurs in the embedded operations. -/
inductive Error where
  | UniqueViolation
  | EmbeddingUniqueViolation
  | NotFound
  | DimensionMismatch
  | LoggerInitializationError
deriving DecidableEq

/-- An embedding, from `model.rs`.  The `id` and `metadata` fields are
`HashMap<String, String>` in the source; a hash map is represented by its
iteration sequence of key-value pairs (the order in which `for (k, v) in map`
visits them), which is exactly the data the source's `hash_map_id` consumes. -/
structure Embedding (R : Type) where
  id : List (String × String)
  vector : List R
  metadata : Option (List (String × String))
deriving DecidableEq

/-- A collection, from `model.rs`. -/
structure Collection (R : Type) where
  dimension : Nat
  distance : Distance
  embeddings : List (Embedding R)
deriving DecidableEq

/-- A similarity result, from `model.rs`. -/
structure SimilarityResult (R : Type) where
  score : R
  embedding : Embedding R
deriving DecidableEq

/-- The score/index pair pushed on the top-k heap.  The struct itself is
declared in the absent `similarity.rs`; its fields are fixed by the use sites
in `db.rs` (`ScoreIndex { score, index }`). -/
structure ScoreIndex (R : Type) where
  score : R
  index : Nat
deriving DecidableEq

/-- The store, `CacheDB` of `model.rs`: `HashMap<String, Collection>`.  The
hash map is represented as its association list; the operations below only
ever bind a name that is not yet present, look a name up, or remove it, so
the representation is observationally the map. -/
abbrev CacheDB (R : Type) := List (String × Collection R)

variable {R : Type} [LinearOrderedField R]

/-! ### Metric kernels, modelled from the specification (`similarity.rs` is
absent from the sources). -/

/-- Sum of squares of a vector's entries, the query-wide quantity whose root
is the L2 norm. -/
def sum_squares (v : List R) : R := (v.map fun x => x * x).sum

/-- Modelled from the spec: `normalize(v)` returns `v / ‖v‖₂`, and maps the
zero vector to the zero vector.  Division by zero is `0` in Lean, so the
zero-norm guard is implicit: when `sqrt (sum_squares v) = 0` every entry maps
to `0`. -/
def normalize (sqrt : R → R) (v : List R) : List R :=
  v.map fun x => x / sqrt (sum_squares v)

/-- Modelled from the spec: the Euclidean kernel returns the squared
Euclidean distance `Σ (a_i − b_i)²`; the memo argument is unused.  Iteration
zips the two vectors, truncating at the shorter one, as Rust's
`a.iter().zip(b)` does. -/
def euclidean_distance (a b : List R) (_memo : R) : R :=
  (List.zipWith (fun x y => (x - y) * (x - y)) a b).sum

/-- Modelled from the spec: the cosine kernel returns `1 − Σ a_i·b_i`
(vectors are normalized at insert time); the memo argument is unused. -/
def cosine_distance (a b : List R) (_memo : R) : R :=
  1 - (List.zipWith (fun x y => x * y) a b).sum

/-- Modelled from the spec: the dot-product kernel returns `−Σ a_i·b_i` so
that lower is more similar for every metric; the memo argument is unused. -/
def dot_product (a b : List R) (_memo : R) : R :=
  -(List.zipWith (fun x y => x * y) a b).sum

/-- Modelled from the spec: the per-query precomputed scalar.  For cosine it
is the query magnitude (the query-wide quantity); the other metrics need no
precomputation and thread a zero. -/
def get_cache_attr (sqrt : R → R) (d : Distance) (v : List R) : R :=
  match d with
  | .Cosine => sqrt (sum_squares v)
  | _ => 0

/-- Modelled from the spec: dispatch from the metric to its kernel. -/
def get_distance_fn (d : Distance) : List R → List R → R → R :=
  match d with
  | .Euclidean => euclidean_distance
  | .Cosine => cosine_distance
  | .DotProduct => dot_product

/-! ### The ScoreIndex comparator and the bounded heap of `get_similarity`. -/

/-- Modelled from the spec: the comparator of `ScoreIndex` orders by score
ascending and breaks equal scores by index descending (§4.B tie-break), so
`a` sorts strictly before `b` when its score is smaller, or the scores tie
and `a` has the larger insertion index. -/
def siLt (a b : ScoreIndex R) : Prop :=
  a.score < b.score ∨ (a.score = b.score ∧ b.index < a.index)

/-- Reflexive closure of the `ScoreIndex` comparator. -/
def siLe (a b : ScoreIndex R) : Prop :=
  a.score < b.score ∨ (a.score = b.score ∧ b.index ≤ a.index)

instance (a b : ScoreIndex R) : Decidable (siLt a b) :=
  inferInstanceAs (Decidable (_ ∨ _))

instance (a b : ScoreIndex R) : Decidable (siLe a b) :=
  inferInstanceAs (Decidable (_ ∨ _))

/-- Insertion into a list kept ascending by the `ScoreIndex` comparator.
Rust's `BinaryHeap<ScoreIndex>` is a priority queue whose observable content
is a multiset with greatest-element access; because the comparator is a
linear order the queue is modelled by the ascending sorted list of its
elements, with the maximum at the tail. -/
def heap_insert (x : ScoreIndex R) : List (ScoreIndex R) → List (ScoreIndex R)
  | [] => [x]
  | y :: ys => if siLe x y then x :: y :: ys else y :: heap_insert x ys

/-- The `if heap.len() > k { heap.pop(); }` step of `db.rs`: dropping the
greatest element (the tail of the ascending list) when the heap exceeds `k`. -/
def heap_trim (k : Nat) (l : List (ScoreIndex R)) : List (ScoreIndex R) :=
  if k < l.length then l.dropLast else l

/-- One iteration of the top-k loop of `get_similarity` (`db.rs` lines
78-86): push when the heap is under capacity or the candidate beats the
current maximum, then trim; `none` models the `heap.peek().unwrap()` panic,
reached when the capacity test fails on an empty heap (that is, `k = 0`). -/
def heap_step (k : Nat) (h : List (ScoreIndex R)) (si : ScoreIndex R) :
    Option (List (ScoreIndex R)) :=
  if h.length < k then some (heap_trim k (heap_insert si h))
  else
    match h.getLast? with
    | none => none
    | some top =>
      if siLt si top then some (heap_trim k (heap_insert si h)) else some h

/-- The default embedding used to totalize the (always in-bounds) vector
indexing `self.embeddings[index]` of `db.rs`. -/
def embDefault : Embedding R := ⟨[], [], none⟩

/-- The scored, enumerated embedding list built by `get_similarity` before
selection (`db.rs` lines 61-74): each embedding is paired with its
insertion-order index and its kernel score against the query. -/
def score_list (sqrt : R → R) (c : Collection R) (query : List R) :
    List (ScoreIndex R) :=
  let memo := get_cache_attr sqrt c.distance query
  let dfn := get_distance_fn c.distance
  c.embeddings.enum.map fun p => ⟨dfn p.2.vector query memo, p.1⟩

/-- Top-k similarity search, `Collection::get_similarity` of `db.rs`.  The
result is `none` exactly when the source panics (empty-heap `peek().unwrap()`
with `k = 0` and a non-empty collection); otherwise it is the drained heap in
ascending comparator order (`into_sorted_vec`), materialized through the
collection's embeddings. -/
def get_similarity (sqrt : R → R) (c : Collection R) (query : List R)
    (k : Nat) : Option (List (SimilarityResult R)) :=
  match (score_list sqrt c query).foldlM (heap_step k) [] with
  | none => none
  | some heap =>
      some (heap.map fun si => ⟨si.score, c.embeddings.getD si.index embDefault⟩)

/-! ### Store operations, from `db.rs`. -/

/-- Key lookup in the store's hash map. -/
def lookup_collection : CacheDB R → String → Option (Collection R)
  | [], _ => none
  | (n, c) :: rest, name => if n = name then some c else lookup_collection rest name

/-- Rebinding of an existing key, the in-place mutation through
`collections.get_mut(name)`. -/
def update_at (db : CacheDB R) (name : String) (c' : Collection R) : CacheDB R :=
  db.map fun p => if p.1 = name then (p.1, c') else p

/-- Idealization of `hash_map_id` of `db.rs`: the source feeds the map's
key-value pairs to a `DefaultHasher` in iteration order and returns the
digest.  The hasher is deterministic in the byte sequence fed to it, and we
idealize it as collision-free, so the hash value is represented by the fed
sequence itself; equality of hashes is equality of iteration sequences. -/
def hash_map_id (id : List (String × String)) : List (String × String) := id

/-- `CacheDB::create_collection` of `db.rs`: fails with `UniqueViolation`
when the name is bound, otherwise binds the name to an empty collection.  The
pair carries the post-state and the error, mirroring in-place mutation plus
`Result`. -/
def create_collection (db : CacheDB R) (name : String) (dimension : Nat)
    (distance : Distance) : CacheDB R × Option Error :=
  if (lookup_collection db name).isSome then (db, some .UniqueViolation)
  else (db ++ [(name, ⟨dimension, distance, []⟩)], none)

/-- `CacheDB::delete_collection` of `db.rs`: fails with `NotFound` when the
name is unbound, otherwise removes the binding. -/
def delete_collection (db : CacheDB R) (name : String) : CacheDB R × Option Error :=
  if (lookup_collection db name).isNone then (db, some .NotFound)
  else (db.filter fun p => !(p.1 = name : Bool), none)

/-- The insert-time preprocessing of `db.rs` (lines 230-233): vectors of
cosine collections are replaced by their normalization, others kept. -/
def prep_embedding (sqrt : R → R) (distance : Distance) (e : Embedding R) :
    Embedding R :=
  if distance = .Cosine then { e with vector := normalize sqrt e.vector } else e

/-- The per-embedding validation of the batch loop of `update_collection`
(`db.rs` lines 270-291): a duplicate hashed id against the current collection
content fails `UniqueViolation`, then a vector length differing from the
collection dimension fails `DimensionMismatch`. -/
def batch_step_error (cur : List (Embedding R)) (dimension : Nat)
    (e : Embedding R) : Option Error :=
  if hash_map_id e.id ∈ cur.map (fun x => hash_map_id x.id) then
    some .UniqueViolation
  else if e.vector.length ≠ dimension then some .DimensionMismatch
  else none

/-- `CacheDB::insert_into_collection` of `db.rs`: `NotFound` when the
collection is absent; `EmbeddingUniqueViolation` when the hashed id is
already present; `DimensionMismatch` when the vector length differs from the
dimension; otherwise the (possibly normalized) embedding is appended. -/
def insert_into_collection (sqrt : R → R) (db : CacheDB R)
    (collection_name : String) (e : Embedding R) : CacheDB R × Option Error :=
  match lookup_collection db collection_name with
  | none => (db, some .NotFound)
  | some c =>
    if hash_map_id e.id ∈ c.embeddings.map (fun x => hash_map_id x.id) then
      (db, some .EmbeddingUniqueViolation)
    else if e.vector.length ≠ c.dimension then (db, some .DimensionMismatch)
    else
      (update_at db collection_name
        { c with embeddings := c.embeddings ++ [prep_embedding sqrt c.distance e] },
       none)

/-- The batch loop of `update_collection` (`db.rs` lines 269-300): embeddings
are validated and appended one at a time against the collection content as
mutated so far, and the loop stops at the first failure, keeping the already
appended prefix. -/
def update_loop (sqrt : R → R) (dimension : Nat) (distance : Distance) :
    List (Embedding R) → List (Embedding R) → List (Embedding R) × Option Error
  | cur, [] => (cur, none)
  | cur, e :: rest =>
    match batch_step_error cur dimension e with
    | some err => (cur, some err)
    | none => update_loop sqrt dimension distance
        (cur ++ [prep_embedding sqrt distance e]) rest

/-- `CacheDB::update_collection` of `db.rs` (batch insert): `NotFound` when
the collection is absent, otherwise the batch loop runs in place; on error
the partially extended collection is kept (non-atomic semantics). -/
def update_collection (sqrt : R → R) (db : CacheDB R) (collection_name : String)
    (new_embeddings : List (Embedding R)) : CacheDB R × Option Error :=
  match lookup_collection db collection_name with
  | none => (db, some .NotFound)
  | some c =>
    let r := update_loop sqrt c.dimension c.distance c.embeddings new_embeddings
    (update_at db collection_name { c with embeddings := r.1 }, r.2)

/-! ### Mutating operations, their execution, and the operation log they
write.  The four mutating entry points of `db.rs` log one `info!` line on
success; the message bodies below are the exact format strings of `db.rs`
(lines 147, 238, 302, 176).  `error!` lines are also written to `output.log`
but contain none of the dispatch substrings of `restore_db_from_logs`, and
accepted-operation logs contain none of them either. -/

/-- A mutating store operation, as driven by the handlers of `handlers.rs`. -/
inductive Op (R : Type) where
  | create (name : String) (dimension : Nat) (distance : Distance)
  | insert (name : String) (e : Embedding R)
  | batchInsert (name : String) (es : List (Embedding R))
  | delete (name : String)

/-- The single-quote character, kept out of string literals. -/
def sq : String := String.mk [Char.ofNat 39]

/-- Success log message of `create_collection` (`db.rs` line 147).  Note that
it carries only the name: no dimension and no distance. -/
def msg_create (name : String) : String :=
  "Created new collection with name: " ++ sq ++ name ++ sq

/-- Success log message of `insert_into_collection` (`db.rs` line 238): only
the collection name, no embedding payload. -/
def msg_insert (name : String) : String :=
  "Embedding successfully inserted into collection " ++ sq ++ name ++ sq

/-- Success log message of `update_collection` (`db.rs` line 302): only the
collection name, no embedding payload. -/
def msg_update (name : String) : String :=
  "Embedding successfully updated to collection " ++ sq ++ name ++ sq

/-- Success log message of `delete_collection` (`db.rs` line 176). -/
def msg_delete (name : String) : String :=
  "Deleted collection with name: " ++ sq ++ name ++ sq

/-- Execute one operation: the post-state, the error if any, and the log
messages written (the success `info!` line when the operation is accepted). -/
def apply_op (sqrt : R → R) (db : CacheDB R) :
    Op R → CacheDB R × Option Error × List String
  | .create n d dist =>
    let r := create_collection db n d dist
    (r.1, r.2, if r.2 = none then [msg_create n] else [])
  | .insert n e =>
    let r := insert_into_collection sqrt db n e
    (r.1, r.2, if r.2 = none then [msg_insert n] else [])
  | .batchInsert n es =>
    let r := update_collection sqrt db n es
    (r.1, r.2, if r.2 = none then [msg_update n] else [])
  | .delete n =>
    let r := delete_collection db n
    (r.1, r.2, if r.2 = none then [msg_delete n] else [])

/-- Execute a sequence of operations against a store, collecting the log
messages in order.  Errors are reported to the caller per operation and do
not stop the sequence, as in the server. -/
def exec_ops (sqrt : R → R) : List (Op R) → CacheDB R → CacheDB R × List String
  | [], db => (db, [])
  | op :: ops, db =>
    let r := apply_op sqrt db op
    let rest := exec_ops sqrt ops r.1
    (rest.1, r.2.2 ++ rest.2)

/-- The store reached from the empty store (the server's initial state). -/
def exec_state (sqrt : R → R) (ops : List (Op R)) : CacheDB R :=
  (exec_ops sqrt ops []).1

/-- Whether every operation of the sequence is accepted when executed in
order from the empty store. -/
def ops_accepted (sqrt : R → R) : List (Op R) → CacheDB R → Prop
  | [], _ => True
  | op :: ops, db =>
    (apply_op sqrt db op).2.1 = none ∧ ops_accepted sqrt ops (apply_op sqrt db op).1

/-- The fixed timestamp stamped on each log line by the fern formatter
(`chrono::Local::now().format` of `db.rs`); the replay parser only consumes
its shape, so a representative constant is used. -/
def ts_stub : String := "2024-09-10 23:28:48"

/-- Render the written log file as the replay driver sees it: each message is
written as one line `TS [LEVEL] msg`, and `restore_db_from_logs` concatenates
the lines with the newlines stripped. -/
def render_log (msgs : List String) : String :=
  String.join (msgs.map fun m => ts_stub ++ " [INFO] " ++ m)

/-! ### The replay parser, from `replay_log.rs`.  The regexes of the source
are embedded as executable matchers over character lists: a pattern is tried
at every start position from the left (leftmost-match semantics), and inside
one start position every regex piece used by the source is deterministic (a
`[^']+` or `\d+` run is bounded by the literal that follows it); the one lazy
group `(.*?)` is matched to the first occurrence of its following literal. -/

/-- Whether `pat` is an initial segment of `s`. -/
def is_pre : List Char → List Char → Bool
  | [], _ => true
  | _ :: _, [] => false
  | p :: ps, c :: cs => p == c && is_pre ps cs

/-- Whether `pat` occurs anywhere inside `hay` (`str::contains`). -/
def contains_sub (hay pat : List Char) : Bool :=
  (List.range (hay.length + 1)).any fun i => is_pre pat (hay.drop i)

/-- String-level substring test, used by the dispatch of
`restore_db_from_logs`. -/
def contains_str (hay pat : String) : Bool := contains_sub hay.data pat.data

/-- ASCII whitespace test modelling the characters `str::trim` and the
`\s` class strip in the log lines at hand. -/
def is_ws (c : Char) : Bool :=
  c == ' ' || c == Char.ofNat 10 || c == Char.ofNat 9 || c == Char.ofNat 13

/-- Strip whitespace from both ends (`str::trim`). -/
def trim_chars (l : List Char) : List Char :=
  ((l.dropWhile is_ws).reverse.dropWhile is_ws).reverse

/-- Whether the timestamp regex `\d{4}-\d{2}-\d{2} \d{2}:\d{2}:\d{2}` of
`split_by_date` matches at the head of `l`. -/
def is_ts_at (l : List Char) : Bool :=
  match l with
  | y1 :: y2 :: y3 :: y4 :: d1 :: m1 :: m2 :: d2 :: dd1 :: dd2 :: sp :: h1 :: h2 :: c1 :: mi1 :: mi2 :: c2 :: s1 :: s2 :: _ =>
    y1.isDigit && y2.isDigit && y3.isDigit && y4.isDigit && d1 == '-' &&
    m1.isDigit && m2.isDigit && d2 == '-' && dd1.isDigit && dd2.isDigit &&
    sp == ' ' && h1.isDigit && h2.isDigit && c1 == ':' && mi1.isDigit &&
    mi2.isDigit && c2 == ':' && s1.isDigit && s2.isDigit
  | _ => false

/-- All match start positions of the timestamp regex inside `l`. -/
def ts_positions (l : List Char) : List Nat :=
  (List.range l.length).filter fun i => is_ts_at (l.drop i)

/-- The segment loop of `split_by_date`: cut before every match start,
skipping empty segments, and keep the final tail. -/
def seg_aux (l : List Char) (start : Nat) : List Nat → List (List Char)
  | [] => if start < l.length then [l.drop start] else []
  | p :: ps =>
    if start ≠ p then ((l.drop start).take (p - start)) :: seg_aux l p ps
    else seg_aux l p ps

/-- `split_by_date` of `replay_log.rs`: the log text split at timestamp
occurrences, each segment trimmed. -/
def split_by_date (s : String) : List String :=
  (seg_aux s.data 0 (ts_positions s.data)).map fun cs => String.mk (trim_chars cs)

/-- Match a literal and return the remainder. -/
def drop_lit (pat s : List Char) : Option (List Char) :=
  if is_pre pat s then some (s.drop pat.length) else none

/-- The single-quote character. -/
def quoteCh : Char := Char.ofNat 39

/-- Capture a `[^']+` group: the maximal nonempty run of non-quote
characters, leaving the remainder (which starts at the quote bounding the
group, consumed by the following literal). -/
def cap_non_quote_plus (s : List Char) : Option (List Char × List Char) :=
  let run := s.takeWhile fun c => !(c == quoteCh)
  if run.isEmpty then none else some (run, s.drop run.length)

/-- Capture a `[^']*` group: like `cap_non_quote_plus` but the run may be
empty. -/
def cap_non_quote_star (s : List Char) : Option (List Char × List Char) :=
  let run := s.takeWhile fun c => !(c == quoteCh)
  some (run, s.drop run.length)

/-- Capture a `\d+` group: the maximal nonempty digit run. -/
def cap_digits_plus (s : List Char) : Option (List Char × List Char) :=
  let run := s.takeWhile Char.isDigit
  if run.isEmpty then none else some (run, s.drop run.length)

/-- Character class of the vector group `[0-9.,\s]`. -/
def is_num_class (c : Char) : Bool :=
  c.isDigit || c == '.' || c == ',' || is_ws c

/-- Capture a `[0-9.,\s]+` group. -/
def cap_num_class_plus (s : List Char) : Option (List Char × List Char) :=
  let run := s.takeWhile is_num_class
  if run.isEmpty then none else some (run, s.drop run.length)

/-- Capture a lazy `(.*?)` group up to the first occurrence of the literal
that follows it; the remainder starts at that literal. -/
def cap_lazy_until (stop : List Char) : List Char → Option (List Char × List Char)
  | [] => if is_pre stop [] then some ([], []) else none
  | c :: cs =>
    if is_pre stop (c :: cs) then some ([], c :: cs)
    else (cap_lazy_until stop cs).map fun p => (c :: p.1, p.2)

/-- Try a matcher at every start position from the left and keep the first
success (regex leftmost-match semantics). -/
def scan_for {α : Type} (p : List Char → Option α) : List Char → Option α
  | [] => p []
  | c :: cs =>
    match p (c :: cs) with
    | some a => some a
    | none => scan_for p cs

/-- Digit run to a natural number. -/
def digits_to_nat (l : List Char) : Nat :=
  l.foldl (fun n c => 10 * n + (c.toNat - 48)) 0

/-- Split a character list on a separator character (`str::split`). -/
def split_on (sep : Char) : List Char → List (List Char)
  | [] => [[]]
  | c :: rest =>
    if c == sep then [] :: split_on sep rest
    else
      match split_on sep rest with
      | [] => [[c]]
      | g :: gs => (c :: g) :: gs

/-- Split at the first occurrence of a separator (`str::splitn(2, sep)`):
the part before it and, when the separator occurs, the part after it. -/
def split_once (sep : Char) : List Char → List Char × Option (List Char)
  | [] => ([], none)
  | c :: rest =>
    if c == sep then ([], some rest)
    else
      let r := split_once sep rest
      (c :: r.1, r.2)

/-- Strip all leading and trailing double quotes
(`str::trim_matches('"')`). -/
def trim_dq (l : List Char) : List Char :=
  ((l.dropWhile fun c => c == '"').reverse.dropWhile fun c => c == '"').reverse

/-- Parse one float token as Rust's `str::parse::<f32>` accepts the tokens
reachable through the `[0-9.,\s]` class: a trimmed run of digits with at most
one dot and at least one digit, read exactly (the f32 rounding is idealized
away with the scalars). -/
def parse_f32 (cs : List Char) : Option R :=
  let t := trim_chars cs
  match split_on '.' t with
  | [a] =>
    if !a.isEmpty && a.all Char.isDigit then some ((digits_to_nat a : Nat) : R)
    else none
  | [a, b] =>
    if !(a ++ b).isEmpty && (a ++ b).all Char.isDigit then
      some (((digits_to_nat (a ++ b) : Nat) : R) / (10 : R) ^ b.length)
    else none
  | _ => none

/-- The vector parse of `parse_and_insert_embeddings`: split on commas,
parse each token, and silently drop the failures (`filter_map`). -/
def parse_vector (cs : List Char) : List R :=
  (split_on ',' cs).filterMap (parse_f32 (R := R))

/-- Insert into the metadata map with hash-map semantics: an existing key is
rebound in place, a new key is appended. -/
def assoc_upsert (m : List (String × String)) (k v : String) :
    List (String × String) :=
  if m.any fun p => p.1 == k then
    m.map fun p => if p.1 == k then (p.1, v) else p
  else m ++ [(k, v)]

/-- The metadata parse of `parse_and_insert_embeddings`: split entries on
commas, split each entry once on a colon, trim and strip quotes, and collect
into a map. -/
def parse_metadata (cs : List Char) : List (String × String) :=
  (split_on ',' cs).foldl
    (fun m entry =>
      let p := split_once ':' entry
      let key := String.mk (trim_dq (trim_chars p.1))
      let value := String.mk (trim_dq (trim_chars (p.2.getD [])))
      assoc_upsert m key value)
    []

/-- The embedding fragment regex shared by the insert and batch-update
parsers: literal braces are written with code 123 and 125. -/
def match_embedding (s : List Char) : Option (Embedding R × List Char) := do
  let s ← drop_lit ("Embedding \x7b id: \x7b\"unique_id\": \"").data s
  let (uid, s) ← cap_digits_plus s
  let s ← drop_lit ("\"\x7d, vector: [").data s
  let (vec, s) ← cap_num_class_plus s
  let s ← drop_lit ("], metadata: Some(\x7b").data s
  let (meta, s) ← cap_lazy_until ("\x7d) \x7d").data s
  let s ← drop_lit ("\x7d) \x7d").data s
  pure (⟨[("unique_id", String.mk uid)], parse_vector vec,
         some (parse_metadata meta)⟩, s)

/-- The whole-line matcher of the create regex of
`parse_and_create_collection`. -/
def match_create (s : List Char) : Option (String × Nat × String) := do
  let s ← drop_lit ("Created new collection with name: " ++ sq).data s
  let (name, s) ← cap_non_quote_plus s
  let s ← drop_lit (sq ++ ", dimension: " ++ sq).data s
  let (digits, s) ← cap_digits_plus s
  let s ← drop_lit (sq ++ ", distance: " ++ sq).data s
  let (dist, s) ← cap_non_quote_plus s
  let _ ← drop_lit sq.data s
  pure (String.mk name, digits_to_nat digits, String.mk dist)

/-- The whole-line matcher of the insert regex of
`parse_and_insert_embeddings`. -/
def match_insert (s : List Char) : Option (Embedding R × String) := do
  let s ← drop_lit ("Embedding: " ++ sq).data s
  let (e, s) ← match_embedding s
  let s ← drop_lit (sq ++ ", successfully inserted into collection " ++ sq).data s
  let (name, s) ← cap_non_quote_star s
  let _ ← drop_lit sq.data s
  pure (e, String.mk name)

/-- All non-overlapping leftmost matches of the embedding fragment regex
(`captures_iter`); the fuel is an upper bound on the scan length, and every
successful match consumes at least its leading literal, so fuel `|s| + 1`
never runs out early. -/
def all_matches (fuel : Nat) (s : List Char) : List (Embedding R) :=
  match fuel with
  | 0 => []
  | fuel + 1 =>
    match s with
    | [] => []
    | c :: cs =>
      match match_embedding (R := R) (c :: cs) with
      | some (e, rest) => e :: all_matches fuel rest
      | none => all_matches fuel cs

/-- The whole-line matcher of the batch-update regex of
`parse_and_update_collection`, inner embedding list included. -/
def match_update (s : List Char) : Option (List (Embedding R) × String) := do
  let s ← drop_lit ("Embedding: " ++ sq ++ "[").data s
  let (inner, s) ← cap_lazy_until ("]" ++ sq ++ " successfully updated to collection " ++ sq).data s
  let s ← drop_lit ("]" ++ sq ++ " successfully updated to collection " ++ sq).data s
  let (name, s) ← cap_non_quote_star s
  let _ ← drop_lit sq.data s
  pure (all_matches (inner.length + 1) inner, String.mk name)

/-- The whole-line matcher of the delete regex of
`parse_and_delete_collection`. -/
def match_delete (s : List Char) : Option String := do
  let s ← drop_lit ("Deleted collection: " ++ sq).data s
  let (name, s) ← cap_non_quote_star s
  let _ ← drop_lit sq.data s
  pure (String.mk name)

/-- `parse_and_create_collection` of `replay_log.rs`: on a regex match, map
the distance token (`DotProduct`, `Cosine`, `Euclidean`, otherwise error) and
drive `create_collection`; per-entry errors and failed matches leave the
store as it is. -/
def parse_and_create_collection (log_line : String) (db : CacheDB R) : CacheDB R :=
  match scan_for match_create log_line.data with
  | none => db
  | some (name, dim, dist) =>
    if dist = "DotProduct" then (create_collection db name dim .DotProduct).1
    else if dist = "Cosine" then (create_collection db name dim .Cosine).1
    else if dist = "Euclidean" then (create_collection db name dim .Euclidean).1
    else db

/-- `parse_and_insert_embeddings` of `replay_log.rs`. -/
def parse_and_insert_embeddings (sqrt : R → R) (log_line : String)
    (db : CacheDB R) : CacheDB R :=
  match scan_for match_insert log_line.data with
  | none => db
  | some (e, name) => (insert_into_collection sqrt db name e).1

/-- `parse_and_update_collection` of `replay_log.rs`; on an error the
partially extended store is kept, as the shared store is mutated in place. -/
def parse_and_update_collection (sqrt : R → R) (log_line : String)
    (db : CacheDB R) : CacheDB R :=
  match scan_for match_update log_line.data with
  | none => db
  | some (es, name) => (update_collection sqrt db name es).1

/-- `parse_and_delete_collection` of `replay_log.rs`. -/
def parse_and_delete_collection (log_line : String) (db : CacheDB R) : CacheDB R :=
  match scan_for match_delete log_line.data with
  | none => db
  | some name => (delete_collection db name).1

/-- The per-entry dispatch of `restore_db_from_logs`, keyed on substring
containment, in source order. -/
def process_entry (sqrt : R → R) (db : CacheDB R) (entry : String) : CacheDB R :=
  if contains_str entry "Created new collection" then
    parse_and_create_collection entry db
  else if contains_str entry "successfully inserted into collection" then
    parse_and_insert_embeddings sqrt entry db
  else if contains_str entry "successfully updated to collection" then
    parse_and_update_collection sqrt entry db
  else if contains_str entry "Deleted collection" then
    parse_and_delete_collection entry db
  else db

/-- `restore_db_from_logs` of `replay_log.rs`, on the newline-stripped log
text: split it at timestamps and process every entry in order. -/
def restore_db_from_logs (sqrt : R → R) (content : String) (db : CacheDB R) :
    CacheDB R :=
  (split_by_date content).foldl (process_entry sqrt) db

/-! ### Specification-side definitions, written from the spec's words, to be
compared with the embedded code. -/

/-- Insertion sort of score/index pairs by the selection order (score
ascending, ties by index descending), the reference ordering of the spec's
top-k contract. -/
def spec_sort (l : List (ScoreIndex R)) : List (ScoreIndex R) :=
  l.foldl (fun s x => heap_insert x s) []

/-- The spec's top-k contract (§4.B): the first `k` score/index pairs in the
reference ordering, materialized through the collection's embeddings. -/
def spec_top_k (sqrt : R → R) (c : Collection R) (query : List R) (k : Nat) :
    List (SimilarityResult R) :=
  ((spec_sort (score_list sqrt c query)).take k).map fun si =>
    ⟨si.score, c.embeddings.getD si.index embDefault⟩

/-- Spec invariant 1 (§3): every stored vector's length equals its
collection's dimension. -/
def dim_invariant (db : CacheDB R) : Prop :=
  ∀ p ∈ db, ∀ e ∈ p.2.embeddings, e.vector.length = p.2.dimension

/-- Stored-id uniqueness as the code maintains it: within every collection
the hashed ids (iteration sequences) are pairwise distinct. -/
def id_invariant (db : CacheDB R) : Prop :=
  ∀ p ∈ db, (p.2.embeddings.map fun e => hash_map_id e.id).Nodup

/-- Equality of id mappings as unordered key-value sets, the spec's
equal-by-id relation (§3). -/
def same_id_set (l₁ l₂ : List (String × String)) : Prop :=
  (∀ kv ∈ l₁, kv ∈ l₂) ∧ (∀ kv ∈ l₂, kv ∈ l₁)

instance (l₁ l₂ : List (String × String)) : Decidable (same_id_set l₁ l₂) :=
  inferInstanceAs (Decidable (_ ∧ _))

/-- The real L2 norm of a vector. -/
noncomputable def l2_norm (v : List ℝ) : ℝ := Real.sqrt (sum_squares v)

/-- Spec invariant 3 (§3, §8): in a cosine collection every stored vector
has L2 norm within `1e-6` of `1`, or is the zero vector. -/
def cosine_invariant (db : CacheDB ℝ) : Prop :=
  ∀ p ∈ db, p.2.distance = .Cosine →
    ∀ e ∈ p.2.embeddings,
      |l2_norm e.vector - 1| ≤ 1 / 1000000 ∨ ∀ x ∈ e.vector, x = 0

/-- A concrete stand-in for `f32::sqrt` on rational scalars, used to
instantiate statements whose truth does not depend on the square root (none
of the rational-scalar scenarios below ever evaluates it on a nonzero
radicand). -/
def sqrt0 : ℚ → ℚ := fun _ => 0

/-- A concrete accepted operation sequence: create a Euclidean collection,
insert one embedding with a numeric single-key `unique_id`. -/
def c1_ops : List (Op ℚ) :=
  [.create "test_collection" 3 .Euclidean,
   .insert "test_collection" ⟨[("unique_id", "1")], [1, 1, 1], none⟩]

/-! ## Theorems -/

section OrderLemmas

variable {R : Type} [LinearOrderedField R]

theorem siLe_refl (a : ScoreIndex R) : siLe a a := Or.inr ⟨rfl, le_refl _⟩

theorem siLe_total (a b : ScoreIndex R) : siLe a b ∨ siLe b a := by
  rcases lt_trichotomy a.score b.score with h | h | h
  · exact Or.inl (Or.inl h)
  · rcases le_total b.index a.index with hi | hi
    · exact Or.inl (Or.inr ⟨h, hi⟩)
    · exact Or.inr (Or.inr ⟨h.symm, hi⟩)
  · exact Or.inr (Or.inl h)

theorem siLe_trans {a b c : ScoreIndex R} (h₁ : siLe a b) (h₂ : siLe b c) :
    siLe a c := by
  rcases h₁ with h₁ | ⟨hs₁, hi₁⟩
  · rcases h₂ with h₂ | ⟨hs₂, _⟩
    · exact Or.inl (h₁.trans h₂)
    · exact Or.inl (hs₂ ▸ h₁)
  · rcases h₂ with h₂ | ⟨hs₂, hi₂⟩
    · exact Or.inl (hs₁ ▸ h₂)
    · exact Or.inr ⟨hs₁.trans hs₂, hi₂.trans hi₁⟩

theorem siLt_of_siLe_of_siLt {a b c : ScoreIndex R} (h₁ : siLe a b)
    (h₂ : siLt b c) : siLt a c := by
  rcases h₁ with h₁ | ⟨hs₁, hi₁⟩
  · rcases h₂ with h₂ | ⟨hs₂, _⟩
    · exact Or.inl (h₁.trans h₂)
    · exact Or.inl (hs₂ ▸ h₁)
  · rcases h₂ with h₂ | ⟨hs₂, hi₂⟩
    · exact Or.inl (hs₁ ▸ h₂)
    · exact Or.inr ⟨hs₁.trans hs₂, lt_of_lt_of_le hi₂ hi₁⟩

theorem siLt_of_siLt_of_siLe {a b c : ScoreIndex R} (h₁ : siLt a b)
    (h₂ : siLe b c) : siLt a c := by
  rcases h₁ with h₁ | ⟨hs₁, hi₁⟩
  · rcases h₂ with h₂ | ⟨hs₂, _⟩
    · exact Or.inl (h₁.trans h₂)
    · exact Or.inl (hs₂ ▸ h₁)
  · rcases h₂ with h₂ | ⟨hs₂, hi₂⟩
    · exact Or.inl (hs₁ ▸ h₂)
    · exact Or.inr ⟨hs₁.trans hs₂, lt_of_le_of_lt hi₂ hi₁⟩

theorem not_siLe_iff {a b : ScoreIndex R} : ¬ siLe a b ↔ siLt b a := by
  constructor
  · intro h
    rcases lt_trichotomy a.score b.score with hs | hs | hs
    · exact absurd (Or.inl hs) h
    · rcases lt_trichotomy b.index a.index with hi | hi | hi
      · exact absurd (Or.inr ⟨hs, hi.le⟩) h
      · exact absurd (Or.inr ⟨hs, hi.le⟩) h
      · exact Or.inr ⟨hs.symm, hi⟩
    · exact Or.inl hs
  · intro h hle
    rcases h with h | ⟨hs, hi⟩
    · rcases hle with hle | ⟨hs', _⟩
      · exact absurd (h.trans hle) (lt_irrefl _)
      · exact absurd h (hs' ▸ lt_irrefl _)
    · rcases hle with hle | ⟨_, hi'⟩
      · exact absurd hle (hs ▸ lt_irrefl _)
      · exact absurd (lt_of_le_of_lt hi' hi) (lt_irrefl _)

theorem not_siLt_iff {a b : ScoreIndex R} : ¬ siLt a b ↔ siLe b a := by
  constructor
  · intro h
    rcases siLe_total b a with hba | hab
    · exact hba
    · rcases hab with hab | ⟨hs, hi⟩
      · exact absurd (Or.inl hab) h
      · rcases lt_or_eq_of_le hi with hi' | hi'
        · exact absurd (Or.inr ⟨hs, hi'⟩) h
        · exact Or.inr ⟨hs.symm, hi'.ge⟩
  · intro h hlt
    exact not_siLe_iff.mpr hlt h

theorem siLe_of_siLt {a b : ScoreIndex R} (h : siLt a b) : siLe a b := by
  rcases h with h | ⟨hs, hi⟩
  · exact Or.inl h
  · exact Or.inr ⟨hs, hi.le⟩

theorem si_eq_of_not_lt_not_lt {a b : ScoreIndex R} (h₁ : ¬ siLt a b)
    (h₂ : ¬ siLt b a) : a = b := by
  have hab := not_siLt_iff.mp h₁
  have hba := not_siLt_iff.mp h₂
  rcases hab with hab | ⟨hs, hi⟩
  · rcases hba with hba | ⟨hs', _⟩
    · exact absurd (hab.trans hba) (lt_irrefl _)
    · exact absurd hab (hs' ▸ lt_irrefl _)
  · rcases hba with hba | ⟨hs', hi'⟩
    · exact absurd hba (hs ▸ lt_irrefl _)
    · cases a; cases b
      simp only at hs hs' hi hi'
      simp [hs', le_antisymm hi hi']

end OrderLemmas

section HeapLemmas

variable {R : Type} [LinearOrderedField R]

theorem heap_insert_length (x : ScoreIndex R) (l : List (ScoreIndex R)) :
    (heap_insert x l).length = l.length + 1 := by
  induction l with
  | nil => rfl
  | cons y ys ih =>
    by_cases h : siLe x y <;> simp [heap_insert, h, ih]

theorem mem_heap_insert {x z : ScoreIndex R} {l : List (ScoreIndex R)} :
    z ∈ heap_insert x l ↔ z = x ∨ z ∈ l := by
  induction l with
  | nil => simp [heap_insert]
  | cons y ys ih =>
    simp only [heap_insert]
    by_cases h : siLe x y
    · rw [if_pos h]
      simp only [List.mem_cons]
    · rw [if_neg h]
      simp only [List.mem_cons, ih]
      tauto

theorem heap_insert_sorted {x : ScoreIndex R} {l : List (ScoreIndex R)}
    (hl : l.Pairwise siLe) : (heap_insert x l).Pairwise siLe := by
  induction l with
  | nil => simp [heap_insert]
  | cons y ys ih =>
    rcases List.pairwise_cons.mp hl with ⟨hy, hys⟩
    simp only [heap_insert]
    by_cases h : siLe x y
    · rw [if_pos h]
      refine List.pairwise_cons.mpr ⟨?_, hl⟩
      intro b hb
      rcases List.mem_cons.mp hb with hb | hb
      · exact hb ▸ h
      · exact siLe_trans h (hy b hb)
    · rw [if_neg h]
      refine List.pairwise_cons.mpr ⟨?_, ih hys⟩
      intro b hb
      rcases mem_heap_insert.mp hb with hb | hb
      · exact hb ▸ siLe_of_siLt (not_siLe_iff.mp h)
      · exact hy b hb

theorem spec_sort_cons_general (l : List (ScoreIndex R))
    (acc : List (ScoreIndex R)) :
    ∀ x, List.foldl (fun s y => heap_insert y s) acc (l ++ [x]) =
      heap_insert x (List.foldl (fun s y => heap_insert y s) acc l) := by
  intro x
  rw [List.foldl_append]
  rfl

theorem spec_sort_append_single (l : List (ScoreIndex R)) (x : ScoreIndex R) :
    spec_sort (l ++ [x]) = heap_insert x (spec_sort l) :=
  spec_sort_cons_general l [] x

theorem spec_sort_sorted_general (l : List (ScoreIndex R))
    (acc : List (ScoreIndex R)) (hacc : acc.Pairwise siLe) :
    (List.foldl (fun s y => heap_insert y s) acc l).Pairwise siLe := by
  induction l generalizing acc with
  | nil => exact hacc
  | cons y ys ih => exact ih _ (heap_insert_sorted hacc)

theorem spec_sort_sorted (l : List (ScoreIndex R)) :
    (spec_sort l).Pairwise siLe :=
  spec_sort_sorted_general l [] (by simp)

theorem spec_sort_length_general (l : List (ScoreIndex R))
    (acc : List (ScoreIndex R)) :
    (List.foldl (fun s y => heap_insert y s) acc l).length =
      acc.length + l.length := by
  induction l generalizing acc with
  | nil => rfl
  | cons y ys ih =>
    simp only [List.foldl_cons, ih, heap_insert_length, List.length_cons]
    omega

theorem spec_sort_length (l : List (ScoreIndex R)) :
    (spec_sort l).length = l.length := by
  simpa using spec_sort_length_general l []

theorem mem_spec_sort_general {z : ScoreIndex R} (l : List (ScoreIndex R))
    (acc : List (ScoreIndex R)) :
    z ∈ List.foldl (fun s y => heap_insert y s) acc l ↔ z ∈ acc ∨ z ∈ l := by
  induction l generalizing acc with
  | nil => simp
  | cons y ys ih =>
    simp only [List.foldl_cons, ih, mem_heap_insert, List.mem_cons]
    tauto

theorem mem_spec_sort {z : ScoreIndex R} {l : List (ScoreIndex R)} :
    z ∈ spec_sort l ↔ z ∈ l := by
  simpa using mem_spec_sort_general (z := z) l []

theorem mem_of_getLast?_eq {α : Type} {l : List α} {a : α}
    (h : l.getLast? = some a) : a ∈ l := by
  cases l with
  | nil => simp at h
  | cons b bs =>
    rw [List.getLast?_eq_getLast _ (by simp)] at h
    exact (Option.some_inj.mp h) ▸ List.getLast_mem _

end HeapLemmas

section TopKLemmas

variable {R : Type} [LinearOrderedField R]

theorem getLast?_cons_of_ne_nil {α : Type} (a : α) {l : List α} (h : l ≠ []) :
    (a :: l).getLast? = l.getLast? := by
  cases l with
  | nil => exact absurd rfl h
  | cons b bs => exact List.getLast?_cons_cons

theorem dropLast_take_succ {α : Type} (k : Nat) (l : List α)
    (h : k + 1 ≤ l.length) : (l.take (k + 1)).dropLast = l.take k := by
  rw [List.dropLast_eq_take, List.length_take, List.take_take]
  have h1 : (k + 1) ⊓ l.length = k + 1 := Nat.min_eq_left h
  rw [h1]
  have h2 : k + 1 - 1 = k := rfl
  rw [h2]
  congr 1
  omega

theorem take_heap_insert_ge :
    ∀ (s : List (ScoreIndex R)), s.Pairwise siLe →
      ∀ (k : Nat) (top x : ScoreIndex R), k ≤ s.length →
        (s.take k).getLast? = some top → siLt top x →
        (heap_insert x s).take k = s.take k := by
  intro s
  induction s with
  | nil =>
    intro _ k top x hk hlast _
    have hz : k = 0 := by simpa using hk
    subst hz
    simp at hlast
  | cons y ys ih =>
    intro hsort k top x hk hlast hlt
    rcases List.pairwise_cons.mp hsort with ⟨hy, hys⟩
    match k with
    | 0 => simp at hlast
    | 1 =>
      have hty : y = top := by simpa using hlast
      subst hty
      have hne : ¬ siLe x y := not_siLe_iff.mpr hlt
      simp [heap_insert, hne]
    | (k' + 2) =>
      have hk' : k' + 1 ≤ ys.length := by
        simp only [List.length_cons] at hk
        omega
      have htne : ys.take (k' + 1) ≠ [] := by
        intro hc
        have hlen := congrArg List.length hc
        rw [List.length_take] at hlen
        simp only [List.length_nil] at hlen
        omega
      rw [List.take_succ_cons, getLast?_cons_of_ne_nil _ htne] at hlast
      have htopmem : top ∈ ys :=
        (List.take_sublist _ _).subset (mem_of_getLast?_eq hlast)
      have hyx : siLt y x := siLt_of_siLe_of_siLt (hy top htopmem) hlt
      have hne : ¬ siLe x y := not_siLe_iff.mpr hyx
      simp only [heap_insert, if_neg hne, List.take_succ_cons]
      rw [ih hys (k' + 1) top x hk' hlast hlt]

theorem heap_insert_take_lt :
    ∀ (s : List (ScoreIndex R)) (k : Nat) (top x : ScoreIndex R),
      k ≤ s.length → (s.take k).getLast? = some top → siLt x top →
      heap_insert x (s.take k) = (heap_insert x s).take (k + 1) := by
  intro s
  induction s with
  | nil =>
    intro k top x hk hlast _
    have hz : k = 0 := by simpa using hk
    subst hz
    simp at hlast
  | cons y ys ih =>
    intro k top x hk hlast hlt
    match k with
    | 0 => simp at hlast
    | 1 =>
      have hty : y = top := by simpa using hlast
      subst hty
      have hle : siLe x y := siLe_of_siLt hlt
      simp [heap_insert, hle]
    | (k' + 2) =>
      have hk' : k' + 1 ≤ ys.length := by
        simp only [List.length_cons] at hk
        omega
      have htne : ys.take (k' + 1) ≠ [] := by
        intro hc
        have hlen := congrArg List.length hc
        rw [List.length_take] at hlen
        simp only [List.length_nil] at hlen
        omega
      rw [List.take_succ_cons, getLast?_cons_of_ne_nil _ htne] at hlast
      by_cases hxy : siLe x y
      · simp [heap_insert, hxy, List.take_succ_cons]
      · simp only [heap_insert, if_neg hxy, List.take_succ_cons]
        rw [ih (k' + 1) top x hk' hlast hlt]

theorem heap_fold_eq (k : Nat) (hk : 1 ≤ k) :
    ∀ (rest p : List (ScoreIndex R)),
      (((p ++ rest).map ScoreIndex.index).Nodup) →
      List.foldlM (heap_step k) ((spec_sort p).take k) rest =
        some ((spec_sort (p ++ rest)).take k) := by
  intro rest
  induction rest with
  | nil =>
    intro p _
    simp
  | cons si rest ih =>
    intro p hnd
    have hstep : heap_step k ((spec_sort p).take k) si =
        some ((spec_sort (p ++ [si])).take k) := by
      have hsort := spec_sort_sorted (R := R) p
      have hlen := spec_sort_length (R := R) p
      rw [spec_sort_append_single]
      by_cases hcap : ((spec_sort p).take k).length < k
      · have hslt : (spec_sort p).length < k := by
          rw [List.length_take] at hcap
          omega
        have htk : (spec_sort p).take k = spec_sort p :=
          List.take_of_length_le hslt.le
        have hins : (heap_insert si (spec_sort p)).length ≤ k := by
          rw [heap_insert_length]
          omega
        rw [heap_step, if_pos hcap, htk, heap_trim,
          List.take_of_length_le hins, if_neg (by omega)]
      · have hklen : k ≤ (spec_sort p).length := by
          rw [List.length_take] at hcap
          omega
        have hcapk : ((spec_sort p).take k).length = k := by
          rw [List.length_take]
          omega
        have hne : (spec_sort p).take k ≠ [] := by
          intro hc
          have := congrArg List.length hc
          rw [hcapk] at this
          simp at this
          omega
        obtain ⟨top, htop⟩ : ∃ top, ((spec_sort p).take k).getLast? = some top :=
          ⟨_, List.getLast?_eq_getLast _ hne⟩
        rw [heap_step, if_neg hcap, htop]
        dsimp only
        by_cases hlt : siLt si top
        · rw [if_pos hlt]
          have hrew := heap_insert_take_lt (spec_sort p) k top si hklen htop hlt
          rw [heap_trim, hrew, if_pos]
          · exact congrArg some
              (dropLast_take_succ k _ (by rw [heap_insert_length]; omega))
          · rw [List.length_take, heap_insert_length]
            omega
        · rw [if_neg hlt]
          have hsine : top ≠ si := by
            intro hc
            have htopp : top ∈ p := by
              have h1 : top ∈ (spec_sort p).take k := mem_of_getLast?_eq htop
              exact mem_spec_sort.mp ((List.take_sublist _ _).subset h1)
            have hidx : si.index ∈ p.map ScoreIndex.index := by
              exact List.mem_map.mpr ⟨top, htopp, by rw [hc]⟩
            rw [List.map_append] at hnd
            rcases List.nodup_append.mp hnd with ⟨_, _, hdisj⟩
            exact absurd (List.mem_map.mpr ⟨si, by simp, rfl⟩)
              (fun hmem => hdisj hidx hmem)
          have htoplt : siLt top si := by
            by_contra hc
            exact hsine (si_eq_of_not_lt_not_lt hc hlt)
          exact congrArg some
            (take_heap_insert_ge (spec_sort p) hsort k top si hklen htop
              htoplt).symm
    rw [List.foldlM_cons, hstep]
    show List.foldlM (heap_step k) ((spec_sort (p ++ [si])).take k) rest = _
    have hnd' : (((p ++ [si]) ++ rest).map ScoreIndex.index).Nodup := by
      rw [List.append_assoc]
      simpa using hnd
    rw [ih (p ++ [si]) hnd', List.append_assoc]
    rfl

end TopKLemmas

section ClaimC4

variable {R : Type} [LinearOrderedField R]

theorem score_le_of_siLe {a b : ScoreIndex R} (h : siLe a b) :
    a.score ≤ b.score := by
  rcases h with h | ⟨hs, _⟩
  · exact h.le
  · exact hs.le

theorem score_list_map_index (sqrt : R → R) (c : Collection R)
    (query : List R) :
    (score_list sqrt c query).map ScoreIndex.index =
      List.range c.embeddings.length := by
  rw [score_list, List.map_map]
  exact List.enum_map_fst _

theorem score_list_length (sqrt : R → R) (c : Collection R) (query : List R) :
    (score_list sqrt c query).length = c.embeddings.length := by
  simp [score_list]

/-- C4 (amended to `k ≥ 1`): for every collection, query and `k ≥ 1`,
`get_similarity` returns (without panicking) exactly the first `k` entries of
the reference ordering — the scored embeddings sorted by score ascending with
equal scores preferring the larger insertion-order index — so the result has
length `min k n`, is sorted by score ascending, and is deterministic (it is a
function of the inputs). -/
theorem claim_c4 (sqrt : ℚ → ℚ) (c : Collection ℚ) (query : List ℚ) (k : Nat)
    (hk : 1 ≤ k) :
    get_similarity sqrt c query k = some (spec_top_k sqrt c query k) ∧
    (spec_top_k sqrt c query k).length = min k c.embeddings.length ∧
    List.Pairwise (fun a b => a.score ≤ b.score) (spec_top_k sqrt c query k) := by
  have hnd : ((([] : List (ScoreIndex ℚ)) ++ score_list sqrt c query).map
      ScoreIndex.index).Nodup := by
    rw [List.nil_append, score_list_map_index]
    exact List.nodup_range _
  have hfold := heap_fold_eq (R := ℚ) k hk (score_list sqrt c query) [] hnd
  refine ⟨?_, ?_, ?_⟩
  · rw [get_similarity]
    have h0 : (spec_sort ([] : List (ScoreIndex ℚ))).take k = [] := by
      simp [spec_sort]
    rw [h0, List.nil_append] at hfold
    rw [hfold]
    rfl
  · rw [spec_top_k, List.length_map, List.length_take, spec_sort_length,
      score_list_length]
  · rw [spec_top_k, List.pairwise_map]
    exact ((spec_sort_sorted _).sublist (List.take_sublist _ _)).imp
      score_le_of_siLe

/-- C4 counterexample: the claim quantifies over every `k`, but at `k = 0` on
a non-empty collection the selection loop evaluates `heap.peek().unwrap()` on
an empty heap and panics (modelled by `none`), so no list of length
`min 0 1 = 0` is returned. -/
theorem claim_c4_counterexample :
    get_similarity sqrt0
      ⟨1, .Euclidean, [⟨[("unique_id", "7")], [2], none⟩]⟩ [0] 0 = none := by
  rfl

/-- C4 witness: the amended theorem instantiated at `k = 1` on a concrete
two-embedding Euclidean collection. -/
theorem claim_c4_witness :
    1 ≤ 1 ∧
    (get_similarity sqrt0
        ⟨1, .Euclidean, [⟨[("unique_id", "1")], [5], none⟩,
          ⟨[("unique_id", "2")], [1], none⟩]⟩ [0] 1 =
      some (spec_top_k sqrt0
        ⟨1, .Euclidean, [⟨[("unique_id", "1")], [5], none⟩,
          ⟨[("unique_id", "2")], [1], none⟩]⟩ [0] 1) ∧
    (spec_top_k sqrt0
        ⟨1, .Euclidean, [⟨[("unique_id", "1")], [5], none⟩,
          ⟨[("unique_id", "2")], [1], none⟩]⟩ [0] 1).length =
      min 1 2 ∧
    List.Pairwise (fun a b => a.score ≤ b.score)
      (spec_top_k sqrt0
        ⟨1, .Euclidean, [⟨[("unique_id", "1")], [5], none⟩,
          ⟨[("unique_id", "2")], [1], none⟩]⟩ [0] 1)) :=
  ⟨by decide, claim_c4 sqrt0
    ⟨1, .Euclidean, [⟨[("unique_id", "1")], [5], none⟩,
      ⟨[("unique_id", "2")], [1], none⟩]⟩ [0] 1 (by decide)⟩

end ClaimC4

section ClaimsC1C2C3

/-- C3: the spec requires `k = 0` to return the empty result with the heap
peek's unwrap unreachable; the code instead reaches
`heap.peek().unwrap()` on the empty heap for every non-empty collection
(first conjunct, `none` models the panic), and returns the empty result only
for an empty collection (second conjunct). -/
theorem claim_c3 :
    get_similarity sqrt0
      ⟨3, .Euclidean, [⟨[("unique_id", "1")], [1, 1, 1], none⟩]⟩
      [0, 0, 0] 0 = none ∧
    get_similarity sqrt0 (⟨3, .Euclidean, []⟩ : Collection ℚ) [0, 0, 0] 0 =
      some [] := by
  constructor
  · rfl
  · rfl

/-- C2: the spec requires a query whose length differs from the collection
dimension to be rejected with `DimensionMismatch`; the code has no error path
in `get_similarity` (nor in its handler) and scores the truncated zip of the
vectors: a length-2 query against a dimension-3 collection produces a scored
result, `(1−1)² + (0−2)² = 4`. -/
theorem claim_c2 :
    ([1, 2] : List ℚ).length ≠ 3 ∧
    get_similarity sqrt0
      ⟨3, .Euclidean, [⟨[("unique_id", "1")], [1, 0, 0], none⟩]⟩ [1, 2] 1 =
      some [⟨4, ⟨[("unique_id", "1")], [1, 0, 0], none⟩⟩] := by
  constructor
  · decide
  · simp [get_similarity, score_list, heap_step, heap_insert, heap_trim,
      get_distance_fn, euclidean_distance, get_cache_attr, embDefault,
      List.enum]
    norm_num

/-- C1: replay does not reproduce direct execution.  The accepted sequence
`c1_ops` (a create and an insert, numeric single-key `unique_id`) yields a
store holding the collection and its embedding (first two conjuncts), but the
log lines actually written by `db.rs` carry only collection names — no
dimension, distance or embedding payload — so every entry fails its replay
regex and `restore_db_from_logs` rebuilds the empty store (last conjunct). -/
theorem claim_c1 :
    ops_accepted sqrt0 c1_ops [] ∧
    lookup_collection (exec_state sqrt0 c1_ops) "test_collection" =
      some ⟨3, .Euclidean, [⟨[("unique_id", "1")], [1, 1, 1], none⟩]⟩ ∧
    restore_db_from_logs sqrt0 (render_log (exec_ops sqrt0 c1_ops []).2) [] =
      ([] : CacheDB ℚ) := by
  refine ⟨⟨rfl, rfl, trivial⟩, rfl, ?_⟩
  set_option maxRecDepth 100000 in rfl

end ClaimsC1C2C3

section ClaimC5

variable {R : Type} [LinearOrderedField R]

theorem prep_embedding_id (sqrt : R → R) (distance : Distance)
    (e : Embedding R) : (prep_embedding sqrt distance e).id = e.id := by
  by_cases h : distance = .Cosine <;> simp [prep_embedding, h]

theorem update_loop_char (sqrt : R → R) (dimension : Nat)
    (distance : Distance) :
    ∀ (es cur : List (Embedding R)),
      ∃ m, m ≤ es.length ∧
        (update_loop sqrt dimension distance cur es).1 =
          cur ++ (es.take m).map (prep_embedding sqrt distance) ∧
        (∀ i, i < m → ∀ ei, es.get? i = some ei →
          batch_step_error
            (cur ++ (es.take i).map (prep_embedding sqrt distance))
            dimension ei = none) ∧
        ((update_loop sqrt dimension distance cur es).2 = none →
          m = es.length) ∧
        (∀ err, (update_loop sqrt dimension distance cur es).2 = some err →
          ∃ em, es.get? m = some em ∧
            batch_step_error
              (cur ++ (es.take m).map (prep_embedding sqrt distance))
              dimension em = some err) := by
  intro es
  induction es with
  | nil =>
    intro cur
    refine ⟨0, le_refl _, by simp [update_loop], ?_, fun _ => rfl, ?_⟩
    · intro i hi
      omega
    · intro err herr
      simp [update_loop] at herr
  | cons e rest ih =>
    intro cur
    rcases hcase : batch_step_error cur dimension e with _ | err0
    · rcases ih (cur ++ [prep_embedding sqrt distance e]) with
        ⟨m', hle, h1, h2, h3, h4⟩
      have hloop : update_loop sqrt dimension distance cur (e :: rest) =
          update_loop sqrt dimension distance
            (cur ++ [prep_embedding sqrt distance e]) rest := by
        rw [update_loop, hcase]
      refine ⟨m' + 1, by simp; omega, ?_, ?_, ?_, ?_⟩
      · rw [hloop, h1, List.take_succ_cons, List.map_cons, List.append_assoc,
          List.singleton_append]
      · intro i hi ei hei
        match i with
        | 0 =>
          rw [List.get?_cons_zero] at hei
          cases hei
          simpa using hcase
        | (i' + 1) =>
          rw [List.get?_cons_succ] at hei
          rw [List.take_succ_cons, List.map_cons, ← List.singleton_append,
            ← List.append_assoc]
          exact h2 i' (by omega) ei hei
      · intro hnone
        rw [hloop] at hnone
        simp [h3 hnone]
      · intro err herr
        rw [hloop] at herr
        rcases h4 err herr with ⟨em, hem, hbe⟩
        refine ⟨em, by rw [List.get?_cons_succ]; exact hem, ?_⟩
        rw [List.take_succ_cons, List.map_cons, ← List.singleton_append,
          ← List.append_assoc]
        exact hbe
    · have hloop : update_loop sqrt dimension distance cur (e :: rest) =
          (cur, some err0) := by
        rw [update_loop, hcase]
      refine ⟨0, by simp, by simp [hloop], ?_, ?_, ?_⟩
      · intro i hi
        omega
      · intro hnone
        rw [hloop] at hnone
        simp at hnone
      · intro err herr
        rw [hloop] at herr
        simp at herr
        refine ⟨e, List.get?_cons_zero, ?_⟩
        simpa [herr] using hcase

/-- C5: batch insert is non-atomic.  For every store, bound collection and
batch there is a halt index `m`: the first `m` embeddings (each passing the
per-step validation against the pre-existing content plus the accepted
prefix) are committed, a successful run commits the whole batch, and a
failing run halts at the first failing embedding, whose step error is
reported while the accepted prefix stays committed.  Moreover a batch
containing two embeddings with the same (hashed) id, all of correct
dimension, always fails with `UniqueViolation`. -/
theorem claim_c5 (sqrt : ℚ → ℚ) (db : CacheDB ℚ) (name : String)
    (c : Collection ℚ) (es : List (Embedding ℚ))
    (hlook : lookup_collection db name = some c) :
    ∃ m, m ≤ es.length ∧
      (update_collection sqrt db name es).1 =
        update_at db name
          { c with embeddings :=
              c.embeddings ++ (es.take m).map (prep_embedding sqrt c.distance) } ∧
      (∀ i, i < m → ∀ ei, es.get? i = some ei →
        batch_step_error
          (c.embeddings ++ (es.take i).map (prep_embedding sqrt c.distance))
          c.dimension ei = none) ∧
      ((update_collection sqrt db name es).2 = none → m = es.length) ∧
      (∀ err, (update_collection sqrt db name es).2 = some err →
        ∃ em, es.get? m = some em ∧
          batch_step_error
            (c.embeddings ++ (es.take m).map (prep_embedding sqrt c.distance))
            c.dimension em = some err) ∧
      ((∀ e ∈ es, e.vector.length = c.dimension) →
        ∀ i j, i < j → ∀ ei ej, es.get? i = some ei → es.get? j = some ej →
          hash_map_id ei.id = hash_map_id ej.id →
          (update_collection sqrt db name es).2 = some Error.UniqueViolation) := by
  have hu1 : (update_collection sqrt db name es).1 =
      update_at db name
        { c with embeddings :=
            (update_loop sqrt c.dimension c.distance c.embeddings es).1 } := by
    rw [update_collection, hlook]
  have hu2 : (update_collection sqrt db name es).2 =
      (update_loop sqrt c.dimension c.distance c.embeddings es).2 := by
    rw [update_collection, hlook]
  rcases update_loop_char sqrt c.dimension c.distance es c.embeddings with
    ⟨m, hle, h1, h2, h3, h4⟩
  refine ⟨m, hle, by rw [hu1, h1], h2, by rw [hu2]; exact h3,
    by rw [hu2]; exact h4, ?_⟩
  intro hdim i j hij ei ej hei hej hsame
  rw [hu2]
  rcases hcase : (update_loop sqrt c.dimension c.distance c.embeddings es).2
    with _ | err
  · exfalso
    have hm : m = es.length := h3 hcase
    have hjlt : j < es.length := by
      rcases List.get?_eq_some.mp hej with ⟨hj, _⟩
      exact hj
    have hstep := h2 j (by omega) ej hej
    have hmem : hash_map_id ej.id ∈
        ((c.embeddings ++ (es.take j).map (prep_embedding sqrt c.distance)).map
          fun x => hash_map_id x.id) := by
      rw [List.map_append]
      refine List.mem_append_right _ ?_
      rw [List.map_map]
      refine List.mem_map.mpr ⟨ei, ?_, ?_⟩
      · have : (es.take j).get? i = some ei := by
          rw [List.get?_take hij]
          exact hei
        exact List.get?_mem this
      · show hash_map_id (prep_embedding sqrt c.distance ei).id = _
        rw [prep_embedding_id]
        exact hsame
    rw [batch_step_error, if_pos hmem] at hstep
    simp at hstep
  · rcases h4 err hcase with ⟨em, hem, hbe⟩
    have hemlen : em.vector.length = c.dimension :=
      hdim em (List.get?_mem hem)
    by_cases hm : hash_map_id em.id ∈
        ((c.embeddings ++ (es.take m).map (prep_embedding sqrt c.distance)).map
          fun x => hash_map_id x.id)
    · rw [batch_step_error, if_pos hm] at hbe
      simp at hbe
      rw [hbe]
    · rw [batch_step_error, if_neg hm, if_neg (by omega)] at hbe
      simp at hbe

end ClaimC5

section ClaimsC6C10

/-- C5 witness: a batch of two same-id embeddings into an existing empty
collection commits the first and fails. -/
theorem claim_c5_witness :
    lookup_collection
        ([("c", ⟨1, .Euclidean, []⟩)] : CacheDB ℚ) "c" =
      some ⟨1, .Euclidean, []⟩ ∧
    (∃ m, m ≤ ([⟨[("unique_id", "1")], [1], none⟩,
        ⟨[("unique_id", "1")], [2], none⟩] : List (Embedding ℚ)).length ∧
      (update_collection sqrt0 [("c", ⟨1, .Euclidean, []⟩)] "c"
          [⟨[("unique_id", "1")], [1], none⟩,
           ⟨[("unique_id", "1")], [2], none⟩]).1 =
        update_at [("c", ⟨1, .Euclidean, []⟩)] "c"
          { dimension := 1, distance := .Euclidean,
            embeddings := [] ++
              (([⟨[("unique_id", "1")], [1], none⟩,
                 ⟨[("unique_id", "1")], [2], none⟩].take m).map
                (prep_embedding sqrt0 Distance.Euclidean)) } ∧
      (∀ i, i < m → ∀ ei,
        ([⟨[("unique_id", "1")], [1], none⟩,
          ⟨[("unique_id", "1")], [2], none⟩] : List (Embedding ℚ)).get? i =
            some ei →
        batch_step_error
          ([] ++ (([⟨[("unique_id", "1")], [1], none⟩,
              ⟨[("unique_id", "1")], [2], none⟩].take i).map
            (prep_embedding sqrt0 Distance.Euclidean))) 1 ei = none) ∧
      ((update_collection sqrt0 [("c", ⟨1, .Euclidean, []⟩)] "c"
          [⟨[("unique_id", "1")], [1], none⟩,
           ⟨[("unique_id", "1")], [2], none⟩]).2 = none → m = 2) ∧
      (∀ err, (update_collection sqrt0 [("c", ⟨1, .Euclidean, []⟩)] "c"
          [⟨[("unique_id", "1")], [1], none⟩,
           ⟨[("unique_id", "1")], [2], none⟩]).2 = some err →
        ∃ em, ([⟨[("unique_id", "1")], [1], none⟩,
            ⟨[("unique_id", "1")], [2], none⟩] : List (Embedding ℚ)).get? m =
              some em ∧
          batch_step_error
            ([] ++ (([⟨[("unique_id", "1")], [1], none⟩,
                ⟨[("unique_id", "1")], [2], none⟩].take m).map
              (prep_embedding sqrt0 Distance.Euclidean))) 1 em = some err) ∧
      ((∀ e ∈ ([⟨[("unique_id", "1")], [1], none⟩,
          ⟨[("unique_id", "1")], [2], none⟩] : List (Embedding ℚ)),
            e.vector.length = 1) →
        ∀ i j, i < j → ∀ ei ej,
          ([⟨[("unique_id", "1")], [1], none⟩,
            ⟨[("unique_id", "1")], [2], none⟩] : List (Embedding ℚ)).get? i =
              some ei →
          ([⟨[("unique_id", "1")], [1], none⟩,
            ⟨[("unique_id", "1")], [2], none⟩] : List (Embedding ℚ)).get? j =
              some ej →
          hash_map_id ei.id = hash_map_id ej.id →
          (update_collection sqrt0 [("c", ⟨1, .Euclidean, []⟩)] "c"
            [⟨[("unique_id", "1")], [1], none⟩,
             ⟨[("unique_id", "1")], [2], none⟩]).2 =
            some Error.UniqueViolation)) :=
  ⟨rfl, claim_c5 sqrt0 [("c", ⟨1, .Euclidean, []⟩)] "c" ⟨1, .Euclidean, []⟩
    [⟨[("unique_id", "1")], [1], none⟩, ⟨[("unique_id", "1")], [2], none⟩]
    rfl⟩

/-- C6: the error discipline of single-embedding insert — `NotFound` for an
absent collection; `EmbeddingUniqueViolation` (the source tag behind the
spec's nominal `UniqueViolation`) for an id collision, checked before the
dimension check, so a duplicate that is also mis-dimensioned reports the
collision; `DimensionMismatch` otherwise on a bad length; and every failure
leaves the store unchanged. -/
theorem claim_c6 (sqrt : ℚ → ℚ) (db : CacheDB ℚ) (name : String)
    (e : Embedding ℚ) :
    (lookup_collection db name = none →
      insert_into_collection sqrt db name e = (db, some .NotFound)) ∧
    (∀ c, lookup_collection db name = some c →
      hash_map_id e.id ∈ c.embeddings.map (fun x => hash_map_id x.id) →
      insert_into_collection sqrt db name e =
        (db, some .EmbeddingUniqueViolation)) ∧
    (∀ c, lookup_collection db name = some c →
      hash_map_id e.id ∉ c.embeddings.map (fun x => hash_map_id x.id) →
      e.vector.length ≠ c.dimension →
      insert_into_collection sqrt db name e = (db, some .DimensionMismatch)) ∧
    (∀ err, (insert_into_collection sqrt db name e).2 = some err →
      (insert_into_collection sqrt db name e).1 = db) := by
  refine ⟨?_, ?_, ?_, ?_⟩
  · intro h
    rw [insert_into_collection, h]
  · intro c hc hm
    rw [insert_into_collection, hc]
    dsimp only
    rw [if_pos hm]
  · intro c hc hm hd
    rw [insert_into_collection, hc]
    dsimp only
    rw [if_neg hm, if_pos hd]
  · intro err herr
    rcases hl : lookup_collection db name with _ | c
    · rw [insert_into_collection, hl]
    · rw [insert_into_collection, hl] at herr ⊢
      dsimp only at herr ⊢
      by_cases hm : hash_map_id e.id ∈
          c.embeddings.map (fun x => hash_map_id x.id)
      · rw [if_pos hm]
      · rw [if_neg hm] at herr ⊢
        by_cases hd : e.vector.length ≠ c.dimension
        · rw [if_pos hd]
        · rw [if_neg hd] at herr
          simp at herr

/-- C6 witness: an embedding that both collides on id and has the wrong
dimension is rejected with the id-collision error, store unchanged. -/
theorem claim_c6_witness :
    hash_map_id ([("unique_id", "1")] : List (String × String)) ∈
      ([(⟨[("unique_id", "1")], [1, 2, 3], none⟩ : Embedding ℚ)].map
        fun x => hash_map_id x.id) ∧
    (([1, 2] : List ℚ).length ≠ 3) ∧
    insert_into_collection sqrt0
      [("c", ⟨3, .Euclidean, [⟨[("unique_id", "1")], [1, 2, 3], none⟩]⟩)]
      "c" ⟨[("unique_id", "1")], [1, 2], none⟩ =
      ([("c", ⟨3, .Euclidean, [⟨[("unique_id", "1")], [1, 2, 3], none⟩]⟩)],
        some .EmbeddingUniqueViolation) :=
  ⟨by decide, by decide,
    (claim_c6 sqrt0
      [("c", ⟨3, .Euclidean, [⟨[("unique_id", "1")], [1, 2, 3], none⟩]⟩)]
      "c" ⟨[("unique_id", "1")], [1, 2], none⟩).2.1
      ⟨3, .Euclidean, [⟨[("unique_id", "1")], [1, 2, 3], none⟩]⟩
      rfl (by decide)⟩

/-- C10: creating a collection under a name that is already bound fails with
`UniqueViolation` and returns the whole store unchanged — the existing
collection keeps its dimension, distance and embeddings even when the
requested ones differ, and no other binding moves. -/
theorem claim_c10 (db : CacheDB ℚ) (name : String) (c : Collection ℚ)
    (dimension : Nat) (distance : Distance)
    (h : lookup_collection db name = some c) :
    create_collection db name dimension distance = (db, some .UniqueViolation) ∧
    lookup_collection
      (create_collection db name dimension distance).1 name = some c := by
  have hs : (lookup_collection db name).isSome := by rw [h]; rfl
  constructor
  · rw [create_collection, if_pos hs]
  · rw [create_collection, if_pos hs]
    exact h

/-- C10 witness: re-creating `"c"` with a different dimension and distance
fails and leaves the original binding intact. -/
theorem claim_c10_witness :
    lookup_collection ([("c", ⟨3, .Euclidean, []⟩)] : CacheDB ℚ) "c" =
      some ⟨3, .Euclidean, []⟩ ∧
    (create_collection ([("c", ⟨3, .Euclidean, []⟩)] : CacheDB ℚ) "c" 5
        .Cosine = ([("c", ⟨3, .Euclidean, []⟩)], some .UniqueViolation) ∧
      lookup_collection
        (create_collection ([("c", ⟨3, .Euclidean, []⟩)] : CacheDB ℚ) "c" 5
          .Cosine).1 "c" = some ⟨3, .Euclidean, []⟩) :=
  ⟨rfl, claim_c10 [("c", ⟨3, .Euclidean, []⟩)] "c" ⟨3, .Euclidean, []⟩ 5
    .Cosine rfl⟩

end ClaimsC6C10

section InvariantLemmas

variable {R : Type} [LinearOrderedField R]

theorem lookup_collection_mem :
    ∀ (db : CacheDB R) (name : String) (c : Collection R),
      lookup_collection db name = some c → (name, c) ∈ db := by
  intro db
  induction db with
  | nil =>
    intro name c h
    simp [lookup_collection] at h
  | cons p rest ih =>
    intro name c h
    obtain ⟨n, pc⟩ := p
    rw [lookup_collection] at h
    by_cases hn : n = name
    · rw [if_pos hn] at h
      cases h
      subst hn
      exact List.mem_cons_self _ _
    · rw [if_neg hn] at h
      exact List.mem_cons_of_mem _ (ih name c h)

theorem mem_update_at {db : CacheDB R} {name : String} {c' : Collection R}
    {p : String × Collection R} (hp : p ∈ update_at db name c') :
    p.2 = c' ∨ p ∈ db := by
  rcases List.mem_map.mp hp with ⟨q, hq, heq⟩
  by_cases hqn : q.1 = name
  · left
    rw [← heq]
    simp [hqn]
  · right
    rw [← heq]
    simp only [if_neg hqn]
    exact hq

theorem batch_step_error_none {cur : List (Embedding R)} {dim : Nat}
    {e : Embedding R} (h : batch_step_error cur dim e = none) :
    hash_map_id e.id ∉ cur.map (fun x => hash_map_id x.id) ∧
      e.vector.length = dim := by
  by_cases hm : hash_map_id e.id ∈ cur.map (fun x => hash_map_id x.id)
  · rw [batch_step_error, if_pos hm] at h
    simp at h
  · by_cases hd : e.vector.length ≠ dim
    · rw [batch_step_error, if_neg hm, if_pos hd] at h
      simp at h
    · exact ⟨hm, by omega⟩

theorem prep_embedding_vector_length (sqrt : R → R) (distance : Distance)
    (e : Embedding R) :
    (prep_embedding sqrt distance e).vector.length = e.vector.length := by
  by_cases h : distance = .Cosine <;>
    simp [prep_embedding, h, normalize]

theorem nodup_hashes_append {l : List (Embedding R)} {e : Embedding R}
    (hl : (l.map fun x => hash_map_id x.id).Nodup)
    (he : hash_map_id e.id ∉ l.map fun x => hash_map_id x.id) :
    ((l ++ [e]).map fun x => hash_map_id x.id).Nodup := by
  rw [List.map_append]
  refine List.nodup_append.mpr ⟨hl, by simp, ?_⟩
  intro a ha hb
  simp only [List.map_cons, List.map_nil, List.mem_singleton] at hb
  exact he (hb ▸ ha)

theorem update_loop_dim (sqrt : R → R) (dim : Nat) (dist : Distance) :
    ∀ (es cur : List (Embedding R)),
      (∀ e ∈ cur, e.vector.length = dim) →
      ∀ e ∈ (update_loop sqrt dim dist cur es).1, e.vector.length = dim := by
  intro es
  induction es with
  | nil =>
    intro cur hcur
    simpa [update_loop] using hcur
  | cons e rest ih =>
    intro cur hcur
    rcases hcase : batch_step_error cur dim e with _ | err
    · rw [update_loop, hcase]
      refine ih _ ?_
      intro e' he'
      rcases List.mem_append.mp he' with he' | he'
      · exact hcur e' he'
      · rw [List.mem_singleton.mp he', prep_embedding_vector_length]
        exact (batch_step_error_none hcase).2
    · rw [update_loop, hcase]
      exact hcur

theorem update_loop_nodup (sqrt : R → R) (dim : Nat) (dist : Distance) :
    ∀ (es cur : List (Embedding R)),
      (cur.map fun x => hash_map_id x.id).Nodup →
      ((update_loop sqrt dim dist cur es).1.map fun x => hash_map_id x.id).Nodup := by
  intro es
  induction es with
  | nil =>
    intro cur hcur
    simpa [update_loop] using hcur
  | cons e rest ih =>
    intro cur hcur
    rcases hcase : batch_step_error cur dim e with _ | err
    · rw [update_loop, hcase]
      refine ih _ ?_
      refine nodup_hashes_append hcur ?_
      have := (batch_step_error_none hcase).1
      simpa [prep_embedding_id] using this
    · rw [update_loop, hcase]
      exact hcur

theorem exec_inv (sqrt : R → R) (Inv : CacheDB R → Prop)
    (hstep : ∀ db op, Inv db → Inv (apply_op sqrt db op).1) :
    ∀ (ops : List (Op R)) (db : CacheDB R), Inv db →
      Inv (exec_ops sqrt ops db).1 := by
  intro ops
  induction ops with
  | nil =>
    intro db h
    exact h
  | cons op ops ih =>
    intro db h
    exact ih _ (hstep db op h)

theorem create_collection_state (db : CacheDB R) (name : String)
    (dimension : Nat) (distance : Distance) :
    (create_collection db name dimension distance).1 = db ∨
    (create_collection db name dimension distance).1 =
      db ++ [(name, ⟨dimension, distance, []⟩)] := by
  by_cases h : (lookup_collection db name).isSome
  · left
    rw [create_collection, if_pos h]
  · right
    rw [create_collection, if_neg h]

theorem delete_collection_mem {db : CacheDB R} {name : String}
    {p : String × Collection R} (hp : p ∈ (delete_collection db name).1) :
    p ∈ db := by
  by_cases h : (lookup_collection db name).isNone
  · rw [delete_collection, if_pos h] at hp
    exact hp
  · rw [delete_collection, if_neg h] at hp
    exact List.mem_of_mem_filter hp

theorem insert_into_collection_state (sqrt : R → R) (db : CacheDB R)
    (name : String) (e : Embedding R) :
    (insert_into_collection sqrt db name e).1 = db ∨
    ∃ c, lookup_collection db name = some c ∧
      hash_map_id e.id ∉ c.embeddings.map (fun x => hash_map_id x.id) ∧
      e.vector.length = c.dimension ∧
      (insert_into_collection sqrt db name e).1 =
        update_at db name
          { c with embeddings :=
              c.embeddings ++ [prep_embedding sqrt c.distance e] } := by
  rcases hl : lookup_collection db name with _ | c
  · left
    rw [insert_into_collection, hl]
  · rw [insert_into_collection, hl]
    dsimp only
    by_cases hm : hash_map_id e.id ∈ c.embeddings.map (fun x => hash_map_id x.id)
    · left
      rw [if_pos hm]
    · by_cases hd : e.vector.length ≠ c.dimension
      · left
        rw [if_neg hm, if_pos hd]
      · right
        exact ⟨c, rfl, hm, by omega, by rw [if_neg hm, if_neg hd]⟩

theorem update_collection_state (sqrt : R → R) (db : CacheDB R)
    (name : String) (es : List (Embedding R)) :
    (update_collection sqrt db name es).1 = db ∨
    ∃ c, lookup_collection db name = some c ∧
      (update_collection sqrt db name es).1 =
        update_at db name
          { c with embeddings :=
              (update_loop sqrt c.dimension c.distance c.embeddings es).1 } := by
  rcases hl : lookup_collection db name with _ | c
  · left
    rw [update_collection, hl]
  · right
    exact ⟨c, rfl, by rw [update_collection, hl]⟩

end InvariantLemmas

section InvariantSteps

variable {R : Type} [LinearOrderedField R]

theorem dim_invariant_step (sqrt : R → R) (db : CacheDB R) (op : Op R)
    (h : dim_invariant db) : dim_invariant (apply_op sqrt db op).1 := by
  cases op with
  | create n d dist =>
    show dim_invariant (create_collection db n d dist).1
    rcases create_collection_state db n d dist with hc | hc
    · rw [hc]
      exact h
    · rw [hc]
      intro p hp
      rcases List.mem_append.mp hp with hp | hp
      · exact h p hp
      · rw [List.mem_singleton.mp hp]
        intro e he
        simp at he
  | insert n e =>
    show dim_invariant (insert_into_collection sqrt db n e).1
    rcases insert_into_collection_state sqrt db n e with hc | ⟨c, hl, _, hd, hc⟩
    · rw [hc]
      exact h
    · rw [hc]
      intro p hp
      rcases mem_update_at hp with hp2 | hp2
      · rw [hp2]
        intro e' he'
        dsimp only at he' ⊢
        rcases List.mem_append.mp he' with he' | he'
        · exact h (n, c) (lookup_collection_mem db n c hl) e' he'
        · rw [List.mem_singleton.mp he', prep_embedding_vector_length]
          exact hd
      · exact h p hp2
  | batchInsert n es =>
    show dim_invariant (update_collection sqrt db n es).1
    rcases update_collection_state sqrt db n es with hc | ⟨c, hl, hc⟩
    · rw [hc]
      exact h
    · rw [hc]
      intro p hp
      rcases mem_update_at hp with hp2 | hp2
      · rw [hp2]
        intro e' he'
        dsimp only at he' ⊢
        exact update_loop_dim sqrt c.dimension c.distance es c.embeddings
          (fun e'' he'' => h (n, c) (lookup_collection_mem db n c hl) e'' he'')
          e' he'
      · exact h p hp2
  | delete n =>
    show dim_invariant (delete_collection db n).1
    intro p hp
    exact h p (delete_collection_mem hp)

theorem id_invariant_step (sqrt : R → R) (db : CacheDB R) (op : Op R)
    (h : id_invariant db) : id_invariant (apply_op sqrt db op).1 := by
  cases op with
  | create n d dist =>
    show id_invariant (create_collection db n d dist).1
    rcases create_collection_state db n d dist with hc | hc
    · rw [hc]
      exact h
    · rw [hc]
      intro p hp
      rcases List.mem_append.mp hp with hp | hp
      · exact h p hp
      · rw [List.mem_singleton.mp hp]
        simp
  | insert n e =>
    show id_invariant (insert_into_collection sqrt db n e).1
    rcases insert_into_collection_state sqrt db n e with hc | ⟨c, hl, hm, _, hc⟩
    · rw [hc]
      exact h
    · rw [hc]
      intro p hp
      rcases mem_update_at hp with hp2 | hp2
      · rw [hp2]
        dsimp only
        refine nodup_hashes_append
          (h (n, c) (lookup_collection_mem db n c hl)) ?_
        simpa [prep_embedding_id] using hm
      · exact h p hp2
  | batchInsert n es =>
    show id_invariant (update_collection sqrt db n es).1
    rcases update_collection_state sqrt db n es with hc | ⟨c, hl, hc⟩
    · rw [hc]
      exact h
    · rw [hc]
      intro p hp
      rcases mem_update_at hp with hp2 | hp2
      · rw [hp2]
        dsimp only
        exact update_loop_nodup sqrt c.dimension c.distance es c.embeddings
          (h (n, c) (lookup_collection_mem db n c hl))
      · exact h p hp2
  | delete n =>
    show id_invariant (delete_collection db n).1
    intro p hp
    exact h p (delete_collection_mem hp)

end InvariantSteps

section RealNormLemmas

variable {R : Type} [LinearOrderedField R]

theorem sum_squares_nonneg (v : List R) : 0 ≤ sum_squares v := by
  induction v with
  | nil => simp [sum_squares]
  | cons x xs ih =>
    have hx : sum_squares (x :: xs) = x * x + sum_squares xs := by
      simp [sum_squares]
    rw [hx]
    exact add_nonneg (mul_self_nonneg x) ih

theorem sum_squares_map_div (v : List R) (c : R) :
    sum_squares (v.map fun x => x / c) = sum_squares v / (c * c) := by
  induction v with
  | nil => simp [sum_squares]
  | cons x xs ih =>
    have h1 : sum_squares ((x :: xs).map fun x => x / c) =
        (x / c) * (x / c) + sum_squares (xs.map fun x => x / c) := by
      simp [sum_squares]
    have h2 : sum_squares (x :: xs) = x * x + sum_squares xs := by
      simp [sum_squares]
    rw [h1, h2, ih, div_mul_div_comm, add_div]

theorem norm_normalize (v : List ℝ) :
    l2_norm (normalize Real.sqrt v) = 1 ∨ ∀ x ∈ normalize Real.sqrt v, x = 0 := by
  by_cases h : sum_squares v = 0
  · right
    intro x hx
    rcases List.mem_map.mp hx with ⟨y, _, rfl⟩
    rw [h, Real.sqrt_zero, div_zero]
  · left
    have hS : 0 < sum_squares v :=
      lt_of_le_of_ne (sum_squares_nonneg v) (Ne.symm h)
    rw [l2_norm, normalize, sum_squares_map_div, Real.mul_self_sqrt hS.le,
      div_self h, Real.sqrt_one]

theorem normalized_prop (v : List ℝ) :
    |l2_norm (normalize Real.sqrt v) - 1| ≤ 1 / 1000000 ∨
      ∀ x ∈ normalize Real.sqrt v, x = 0 := by
  rcases norm_normalize v with h | h
  · left
    rw [h]
    norm_num
  · right
    exact h

theorem update_loop_cos (dim : Nat) :
    ∀ (es cur : List (Embedding ℝ)),
      (∀ e ∈ cur, |l2_norm e.vector - 1| ≤ 1 / 1000000 ∨ ∀ x ∈ e.vector, x = 0) →
      ∀ e ∈ (update_loop Real.sqrt dim .Cosine cur es).1,
        |l2_norm e.vector - 1| ≤ 1 / 1000000 ∨ ∀ x ∈ e.vector, x = 0 := by
  intro es
  induction es with
  | nil =>
    intro cur hcur
    simpa [update_loop] using hcur
  | cons e rest ih =>
    intro cur hcur
    rcases hcase : batch_step_error cur dim e with _ | err
    · rw [update_loop, hcase]
      refine ih _ ?_
      intro e' he'
      rcases List.mem_append.mp he' with he' | he'
      · exact hcur e' he'
      · rw [List.mem_singleton.mp he']
        have hv : (prep_embedding Real.sqrt .Cosine e).vector =
            normalize Real.sqrt e.vector := by
          simp [prep_embedding]
        rw [hv]
        exact normalized_prop e.vector
    · rw [update_loop, hcase]
      exact hcur

theorem cosine_invariant_step (db : CacheDB ℝ) (op : Op ℝ)
    (h : cosine_invariant db) : cosine_invariant (apply_op Real.sqrt db op).1 := by
  cases op with
  | create n d dist =>
    show cosine_invariant (create_collection db n d dist).1
    rcases create_collection_state db n d dist with hc | hc
    · rw [hc]
      exact h
    · rw [hc]
      intro p hp
      rcases List.mem_append.mp hp with hp | hp
      · exact h p hp
      · rw [List.mem_singleton.mp hp]
        intro _ e he
        simp at he
  | insert n e =>
    show cosine_invariant (insert_into_collection Real.sqrt db n e).1
    rcases insert_into_collection_state Real.sqrt db n e with
      hc | ⟨c, hl, _, _, hc⟩
    · rw [hc]
      exact h
    · rw [hc]
      intro p hp
      rcases mem_update_at hp with hp2 | hp2
      · rw [hp2]
        intro hdist e' he'
        dsimp only at hdist he' ⊢
        rcases List.mem_append.mp he' with he' | he'
        · exact h (n, c) (lookup_collection_mem db n c hl) hdist e' he'
        · rw [List.mem_singleton.mp he']
          have hv : (prep_embedding Real.sqrt c.distance e).vector =
              normalize Real.sqrt e.vector := by
            simp [prep_embedding, hdist]
          rw [hv]
          exact normalized_prop e.vector
      · exact h p hp2
  | batchInsert n es =>
    show cosine_invariant (update_collection Real.sqrt db n es).1
    rcases update_collection_state Real.sqrt db n es with hc | ⟨c, hl, hc⟩
    · rw [hc]
      exact h
    · rw [hc]
      intro p hp
      rcases mem_update_at hp with hp2 | hp2
      · rw [hp2]
        intro hdist e' he'
        dsimp only at hdist he' ⊢
        rw [hdist] at he'
        exact update_loop_cos c.dimension es c.embeddings
          (h (n, c) (lookup_collection_mem db n c hl) hdist) e' he'
      · exact h p hp2
  | delete n =>
    show cosine_invariant (delete_collection db n).1
    intro p hp
    exact h p (delete_collection_mem hp)

end RealNormLemmas

section ClaimsC7C8C9

/-- C8: after executing any sequence of the four mutating operations from
the empty store (errors reported but, as in the source, partial batch
effects kept), every stored embedding's vector length equals its
collection's dimension. -/
theorem claim_c8 (sqrt : ℚ → ℚ) (ops : List (Op ℚ)) :
    dim_invariant (exec_state sqrt ops) :=
  exec_inv sqrt dim_invariant (fun db op h => dim_invariant_step sqrt db op h)
    ops [] (fun p hp => absurd hp (List.not_mem_nil p))

/-- C7 (amended): what insert and batch insert reject is an embedding whose
id map has the same iteration sequence (the data fed to the hasher) as one
already stored, so after any operation sequence the stored id sequences are
pairwise distinct within every collection; for single-key ids this coincides
with value equality of the maps. -/
theorem claim_c7 (sqrt : ℚ → ℚ) (ops : List (Op ℚ)) :
    id_invariant (exec_state sqrt ops) :=
  exec_inv sqrt id_invariant (fun db op h => id_invariant_step sqrt db op h)
    ops [] (fun p hp => absurd hp (List.not_mem_nil p))

/-- C7 counterexample: two id maps that are equal as unordered key-value
sets but iterate in different orders hash differently, so the insert is
accepted and the collection ends up holding two embeddings with value-equal
ids — the claim's rejection does not happen. -/
theorem claim_c7_counterexample :
    same_id_set [("a", "x"), ("b", "y")] [("b", "y"), ("a", "x")] ∧
    insert_into_collection sqrt0
      [("c", ⟨1, .Euclidean, [⟨[("a", "x"), ("b", "y")], [1], none⟩]⟩)]
      "c" ⟨[("b", "y"), ("a", "x")], [2], none⟩ =
      ([("c", ⟨1, .Euclidean,
          [⟨[("a", "x"), ("b", "y")], [1], none⟩,
           ⟨[("b", "y"), ("a", "x")], [2], none⟩]⟩)], none) := by
  constructor
  · decide
  · rfl

/-- C9: with the real square root, every accepted insert into a cosine
collection stores the L2 normalization of its input (the zero vector staying
zero), so after any operation sequence every vector stored in a cosine
collection has L2 norm within `1e-6` of `1` or is the zero vector. -/
theorem claim_c9 (ops : List (Op ℝ)) :
    cosine_invariant (exec_state Real.sqrt ops) :=
  exec_inv Real.sqrt cosine_invariant
    (fun db op h => cosine_invariant_step db op h)
    ops [] (fun p hp => absurd hp (List.not_mem_nil p))

end ClaimsC7C8C9

end MemVec
